import Mathlib

/-!
Verification of the lexer of projectplaid/compiler (src/src/lexer/mod.rs).

The Rust lexer is shallowly embedded: the character stream behind the
`Peekable<IntoIter<char>>` together with the `line`/`column` counters of
`LexerInstance` becomes an explicit state record; Rust `String` values become
`List Char`; fallible scans (`Result<Token, LexerError>`) become `Except`;
the two `.expect(...)` calls (which panic when no character is available)
are modelled by an outer `Option`, where `none` is the panic.
-/

namespace Plaid

/-- The `Symbol` enum of the source (src/src/lexer/mod.rs lines 8-29). -/
inductive Symbol where
  | Identifier
  | Keyword
  | Number
  | LParen
  | RParen
  | LBracket
  | RBracket
  | Period
  | Semicolon
  | Hash
  | LT
  | GT
  | StringLiteral
  | Comment
  | LBrace
  | RBrace
  | DollarSign
  | Bang
  | EndOfFile
deriving DecidableEq

/-- The `Token` struct: a symbol plus a value string (modelled as `List Char`). -/
structure Token where
  symbol : Symbol
  value : List Char
deriving DecidableEq

/-- The `LexerError` struct: an error message string. -/
structure LexerError where
  message : List Char
deriving DecidableEq

/-- The mutable state of `LexerInstance`: the unconsumed character stream of
`reader_iter` plus the `line` and `column` counters (both `u64` in the source;
they only ever grow, so `Nat` is a faithful model). -/
structure LexerInstance where
  chars : List Char
  line : Nat
  column : Nat
deriving DecidableEq

/-- `LexerInstance::new` after the file has been read to the string `cs`:
position starts at line 1, column 1 (source lines 55-63). -/
def mkLexer (cs : List Char) : LexerInstance :=
  ⟨cs, 1, 1⟩

/-- The Rust range pattern `'0'..='9'` compares Unicode scalar values;
`Char.toNat` is that scalar value ( ('0').toNat = 48, ('9').toNat = 57 ). -/
def isDigit (c : Char) : Bool :=
  ('0').toNat ≤ c.toNat && c.toNat ≤ ('9').toNat

/-- The range pattern `'A'..='Z'`. -/
def isUpper (c : Char) : Bool :=
  ('A').toNat ≤ c.toNat && c.toNat ≤ ('Z').toNat

/-- The range pattern `'a'..='z'`. -/
def isLower (c : Char) : Bool :=
  ('a').toNat ≤ c.toNat && c.toNat ≤ ('z').toNat

/-- The `'A'..='Z' | 'a'..='z'` dispatch class of `next_token` (line 186). -/
def isAlpha (c : Char) : Bool :=
  isUpper c || isLower c

/-- The `'A'..='Z' | 'a'..='z' | '0'..='9' | '_'` continuation class of
`handle_alpha` (line 157). -/
def isAlnumU (c : Char) : Bool :=
  isUpper c || isLower c || isDigit c || c = '_'

/-- The whitespace class `'\t' | '\r' | '\n' | ' '` of `skip_whitespace`
(line 89), also used as the stopping class of `handle_alpha` (line 154). -/
def isWhite (c : Char) : Bool :=
  c = '\t' || c = '\r' || c = '\n' || c = ' '

/-- `get_char` (source lines 65-84): consume one character; on `'\n'` reset
column to 1 and increment line, on `'\r'` leave line and column unchanged,
otherwise increment column. `none` when the stream is exhausted. -/
def getChar : LexerInstance → Option (Char × LexerInstance)
  | ⟨[], _, _⟩ => none
  | ⟨c :: rest, l, col⟩ =>
    if c = '\n' then some (c, ⟨rest, l + 1, 1⟩)
    else if c = '\r' then some (c, ⟨rest, l, col⟩)
    else some (c, ⟨rest, l, col + 1⟩)

/-- `skip_whitespace` (source lines 86-97): consume a maximal run of
whitespace characters via `get_char`; the per-character line/column updates
of `get_char` are inlined so the recursion is structural on the list. -/
def skipWhitespace : List Char → Nat → Nat → LexerInstance
  | [], l, col => ⟨[], l, col⟩
  | c :: rest, l, col =>
    if isWhite c then
      -- get_char: '\n' bumps the line, '\r' changes nothing, else bump column
      if c = '\n' then skipWhitespace rest (l + 1) 1
      else if c = '\r' then skipWhitespace rest l col
      else skipWhitespace rest l (col + 1)
    else ⟨c :: rest, l, col⟩

/-- The `while let Some(&c) = self.reader_iter.peek()` loop of `handle_string`
(source lines 110-143), entered after the opening quote was consumed, with
`value` the accumulator.  On `'\''` the quote is consumed and the next
character is peeked: a second `'\''` is a doubled-quote escape (push one
`'\''`, consume it, continue), anything else — or end of input — completes
the literal.  Any other character is consumed; `'\r'` is dropped, everything
else (including `'\n'`) is pushed.  Falling off the end of the stream yields
the `unterminated string constant` error carrying the partial value.
The line/column effects of each `get_char` call are inlined (none of the
consumed quote characters is `'\n'` or `'\r'`). -/
def stringLoop : List Char → Nat → Nat → List Char → Except LexerError Token × LexerInstance
  | [], l, col, value => (.error ⟨("unterminated string constant: ").data ++ value⟩, ⟨[], l, col⟩)
  | c :: rest, l, col, value =>
    if c = '\'' then
      match rest with
      | ch :: rest2 =>
        if ch = '\'' then stringLoop rest2 l (col + 2) (value ++ ['\''])
        else (.ok ⟨.StringLiteral, value⟩, ⟨ch :: rest2, l, col + 1⟩)
      | [] => (.ok ⟨.StringLiteral, value⟩, ⟨[], l, col + 1⟩)
    else if c = '\r' then stringLoop rest l col value
    else if c = '\n' then stringLoop rest (l + 1) 1 (value ++ [c])
    else stringLoop rest l (col + 1) (value ++ [c])

/-- `handle_string` (source lines 103-143): `get_char().expect(...)` consumes
the opening quote — the panic of the `.expect` is the `none` case — then the
scan loop runs with an empty accumulator. -/
def handleString (st : LexerInstance) : Option (Except LexerError Token × LexerInstance) :=
  match getChar st with
  | none => none
  | some (_, st1) => some (stringLoop st1.chars st1.line st1.column [])

/-- The `while let Some(&c) = self.reader_iter.peek()` loop of `handle_alpha`
(source lines 152-174): whitespace stops the scan without being consumed and
emits `Identifier`; letters, digits and `'_'` are consumed and appended; a
`':'` is consumed (not appended) and emits `Keyword`; any other character is
an `unexpected char` error; end of input emits `EndOfFile` carrying the
accumulated value (source line 173). -/
def alphaLoop : List Char → Nat → Nat → List Char → Except LexerError Token × LexerInstance
  | [], l, col, value => (.ok ⟨.EndOfFile, value⟩, ⟨[], l, col⟩)
  | c :: rest, l, col, value =>
    if isWhite c then (.ok ⟨.Identifier, value⟩, ⟨c :: rest, l, col⟩)
    else if isAlnumU c then alphaLoop rest l (col + 1) (value ++ [c])
    else if c = ':' then (.ok ⟨.Keyword, value⟩, ⟨rest, l, col + 1⟩)
    -- the offending character is only peeked, not consumed (source lines 165-169)
    else (.error ⟨("unexpected char ").data ++ [c]⟩, ⟨c :: rest, l, col⟩)

/-- `handle_alpha` (source lines 145-174): `get_char().expect(...)` consumes
the first character (panic modelled as `none`), which seeds the accumulator. -/
def handleAlpha (st : LexerInstance) : Option (Except LexerError Token × LexerInstance) :=
  match getChar st with
  | none => none
  | some (c, st1) => some (alphaLoop st1.chars st1.line st1.column [c])

/-- `handle_number` (source lines 99-101): an unimplemented stub that returns
an `EndOfFile` token with empty value and consumes nothing. -/
def handleNumber (st : LexerInstance) : Except LexerError Token × LexerInstance :=
  (.ok ⟨.EndOfFile, []⟩, st)

/-- `handle_comment` (source lines 176-178): an unimplemented stub that
returns an `EndOfFile` token with empty value and consumes nothing. -/
def handleComment (st : LexerInstance) : Except LexerError Token × LexerInstance :=
  (.ok ⟨.EndOfFile, []⟩, st)

/-- `next_token` (source lines 180-203): skip whitespace, then dispatch on the
peeked character: digit → `handle_number`; letter → `handle_alpha`; `'.'` →
consume and emit `Period` with value `"."`; `'\''` → `handle_string`; `'"'` →
`handle_comment`; empty stream → `EndOfFile` with empty value; anything else →
consume it and fail with an `unexpected character` error.  The result is
`none` exactly when a sub-scanner's `.expect` would panic. -/
def nextToken (st : LexerInstance) : Option (Except LexerError Token × LexerInstance) :=
  match skipWhitespace st.chars st.line st.column with
  | ⟨[], l, col⟩ => some (.ok ⟨.EndOfFile, []⟩, ⟨[], l, col⟩)
  | ⟨c :: rest, l, col⟩ =>
    if isDigit c then some (handleNumber ⟨c :: rest, l, col⟩)
    else if isAlpha c then handleAlpha ⟨c :: rest, l, col⟩
    else if c = '.' then some (.ok ⟨.Period, ['.']⟩, ⟨rest, l, col + 1⟩)
    else if c = '\'' then handleString ⟨c :: rest, l, col⟩
    else if c = '"' then some (handleComment ⟨c :: rest, l, col⟩)
    else
      -- `let _ = self.get_char();` — the offending character is consumed
      some (.error ⟨("unexpected character ").data ++ [c]⟩,
        if c = '\n' then ⟨rest, l + 1, 1⟩
        else if c = '\r' then ⟨rest, l, col⟩
        else ⟨rest, l, col + 1⟩)

/-- Doubled-quote encoding of a string body (spec glossary): each `'\''` of
the decoded value is written as two consecutive `'\''` characters.  Used to
state the round-trip law of the string scan. -/
def escapeQuotes : List Char → List Char
  | [] => []
  | c :: rest =>
    if c = '\'' then '\'' :: '\'' :: escapeQuotes rest
    else c :: escapeQuotes rest

/-- Characterization of the inputs on which the string-scan loop reaches end
of input with no terminating case: every quote that appears is immediately
followed by another quote (a doubled-quote escape), so the stream is
exhausted before a closing quote is found. -/
def unterminated : List Char → Bool
  | [] => true
  | c :: rest =>
    if c = '\'' then
      match rest with
      | ch :: rest2 => if ch = '\'' then unterminated rest2 else false
      | [] => false
    else unterminated rest

/-- The value the string-scan loop has accumulated when it reaches end of
input: doubled quotes decode to one quote, carriage-returns are dropped,
everything else is kept. -/
def pendingValue : List Char → List Char
  | [] => []
  | c :: rest =>
    if c = '\'' then
      match rest with
      | ch :: rest2 => if ch = '\'' then '\'' :: pendingValue rest2 else []
      | [] => []
    else if c = '\r' then pendingValue rest
    else c :: pendingValue rest

/-! ## Character-class lemmas -/

theorem ne_of_true_of_false {f : Char → Bool} {c d : Char}
    (h : f c = true) (hd : f d = false) : c ≠ d := by
  intro he
  subst he
  rw [h] at hd
  exact Bool.noConfusion hd

theorem isDigit_iff {c : Char} : isDigit c = true ↔ 48 ≤ c.toNat ∧ c.toNat ≤ 57 := by
  unfold isDigit
  rw [Bool.and_eq_true, decide_eq_true_eq, decide_eq_true_eq,
    show ('0').toNat = 48 from rfl, show ('9').toNat = 57 from rfl]

theorem isUpper_iff {c : Char} : isUpper c = true ↔ 65 ≤ c.toNat ∧ c.toNat ≤ 90 := by
  unfold isUpper
  rw [Bool.and_eq_true, decide_eq_true_eq, decide_eq_true_eq,
    show ('A').toNat = 65 from rfl, show ('Z').toNat = 90 from rfl]

theorem isLower_iff {c : Char} : isLower c = true ↔ 97 ≤ c.toNat ∧ c.toNat ≤ 122 := by
  unfold isLower
  rw [Bool.and_eq_true, decide_eq_true_eq, decide_eq_true_eq,
    show ('a').toNat = 97 from rfl, show ('z').toNat = 122 from rfl]

theorem not_digit_of_alpha {c : Char} (h : isAlpha c = true) : isDigit c = false := by
  cases hx : isDigit c with
  | false => rfl
  | true =>
    exfalso
    have hd := isDigit_iff.mp hx
    rw [isAlpha, Bool.or_eq_true] at h
    rcases h with h | h
    · have := isUpper_iff.mp h
      omega
    · have := isLower_iff.mp h
      omega

theorem not_white_of_alpha {c : Char} (h : isAlpha c = true) : isWhite c = false := by
  have h1 : c ≠ '\t' := ne_of_true_of_false h (by decide)
  have h2 : c ≠ '\r' := ne_of_true_of_false h (by decide)
  have h3 : c ≠ '\n' := ne_of_true_of_false h (by decide)
  have h4 : c ≠ ' ' := ne_of_true_of_false h (by decide)
  simp [isWhite, h1, h2, h3, h4]

theorem not_white_of_digit {c : Char} (h : isDigit c = true) : isWhite c = false := by
  have h1 : c ≠ '\t' := ne_of_true_of_false h (by decide)
  have h2 : c ≠ '\r' := ne_of_true_of_false h (by decide)
  have h3 : c ≠ '\n' := ne_of_true_of_false h (by decide)
  have h4 : c ≠ ' ' := ne_of_true_of_false h (by decide)
  simp [isWhite, h1, h2, h3, h4]

theorem not_white_of_alnumU {c : Char} (h : isAlnumU c = true) : isWhite c = false := by
  have h1 : c ≠ '\t' := ne_of_true_of_false h (by decide)
  have h2 : c ≠ '\r' := ne_of_true_of_false h (by decide)
  have h3 : c ≠ '\n' := ne_of_true_of_false h (by decide)
  have h4 : c ≠ ' ' := ne_of_true_of_false h (by decide)
  simp [isWhite, h1, h2, h3, h4]

/-! ## Cursor-step lemmas -/

theorem getChar_cons {c : Char} {rest : List Char} {l col : Nat}
    (h1 : c ≠ '\n') (h2 : c ≠ '\r') :
    getChar ⟨c :: rest, l, col⟩ = some (c, ⟨rest, l, col + 1⟩) := by
  simp [getChar, h1, h2]

theorem skip_not_white {c : Char} {rest : List Char} {l col : Nat} (h : isWhite c = false) :
    skipWhitespace (c :: rest) l col = ⟨c :: rest, l, col⟩ := by
  simp [skipWhitespace, h]

theorem skip_white_step {c : Char} {rest : List Char} {l col : Nat} (h : isWhite c = true) :
    skipWhitespace (c :: rest) l col =
      if c = '\n' then skipWhitespace rest (l + 1) 1
      else if c = '\r' then skipWhitespace rest l col
      else skipWhitespace rest l (col + 1) := by
  simp [skipWhitespace, h]

theorem skipWhitespace_append (ws : List Char) : ∀ (cs : List Char) (l col : Nat),
    (∀ x ∈ ws, isWhite x = true) →
    skipWhitespace (ws ++ cs) l col =
      skipWhitespace cs (skipWhitespace ws l col).line (skipWhitespace ws l col).column := by
  induction ws with
  | nil => intro cs l col _; rfl
  | cons w ws ih =>
    intro cs l col hws
    have hw : isWhite w = true := hws w (by simp)
    have hws' : ∀ x ∈ ws, isWhite x = true := fun x hx => hws x (by simp [hx])
    rw [List.cons_append, skip_white_step hw, skip_white_step hw]
    by_cases h1 : w = '\n'
    · rw [if_pos h1, if_pos h1, ih _ _ _ hws']
    · rw [if_neg h1, if_neg h1]
      by_cases h2 : w = '\r'
      · rw [if_pos h2, if_pos h2, ih _ _ _ hws']
      · rw [if_neg h2, if_neg h2, ih _ _ _ hws']

theorem skip_all_white (ws : List Char) : ∀ (l col : Nat),
    (∀ x ∈ ws, isWhite x = true) →
    ∃ l' col', skipWhitespace ws l col = ⟨[], l', col'⟩ := by
  induction ws with
  | nil => intro l col _; exact ⟨l, col, rfl⟩
  | cons w ws ih =>
    intro l col hws
    have hw : isWhite w = true := hws w (by simp)
    have hws' : ∀ x ∈ ws, isWhite x = true := fun x hx => hws x (by simp [hx])
    rw [skip_white_step hw]
    by_cases h1 : w = '\n'
    · rw [if_pos h1]; exact ih _ _ hws'
    · rw [if_neg h1]
      by_cases h2 : w = '\r'
      · rw [if_pos h2]; exact ih _ _ hws'
      · rw [if_neg h2]; exact ih _ _ hws'

/-! ## Identifier/keyword scan lemmas -/

theorem alphaLoop_step_white {c : Char} {cs : List Char} {l col : Nat} {value : List Char}
    (h : isWhite c = true) :
    alphaLoop (c :: cs) l col value = (.ok ⟨.Identifier, value⟩, ⟨c :: cs, l, col⟩) := by
  simp [alphaLoop, h]

theorem alphaLoop_step_alnum {c : Char} {cs : List Char} {l col : Nat} {value : List Char}
    (h : isAlnumU c = true) :
    alphaLoop (c :: cs) l col value = alphaLoop cs l (col + 1) (value ++ [c]) := by
  simp [alphaLoop, not_white_of_alnumU h, h]

theorem alphaLoop_step_colon {cs : List Char} {l col : Nat} {value : List Char} :
    alphaLoop (':' :: cs) l col value = (.ok ⟨.Keyword, value⟩, ⟨cs, l, col + 1⟩) := by
  have h1 : isWhite ':' = false := by decide
  have h2 : isAlnumU ':' = false := by decide
  simp [alphaLoop, h1, h2]

theorem alphaLoop_all_alnum (cs : List Char) : ∀ (l col : Nat) (value : List Char),
    (∀ c ∈ cs, isAlnumU c = true) →
    alphaLoop cs l col value = (.ok ⟨.EndOfFile, value ++ cs⟩, ⟨[], l, col + cs.length⟩) := by
  induction cs with
  | nil => intro l col value _; simp [alphaLoop]
  | cons c cs ih =>
    intro l col value h
    have hc : isAlnumU c = true := h c (by simp)
    rw [alphaLoop_step_alnum hc, ih _ _ _ (fun x hx => h x (by simp [hx]))]
    have hcol : col + 1 + cs.length = col + (c :: cs).length := by
      simp only [List.length_cons]
      omega
    rw [hcol, List.append_assoc]
    simp

theorem alphaLoop_keyword (mid : List Char) : ∀ (rest : List Char) (l col : Nat)
    (value : List Char), (∀ c ∈ mid, isAlnumU c = true) →
    alphaLoop (mid ++ ':' :: rest) l col value =
      (.ok ⟨.Keyword, value ++ mid⟩, ⟨rest, l, col + mid.length + 1⟩) := by
  induction mid with
  | nil =>
    intro rest l col value _
    simp [alphaLoop_step_colon]
  | cons c mid ih =>
    intro rest l col value h
    have hc : isAlnumU c = true := h c (by simp)
    rw [List.cons_append, alphaLoop_step_alnum hc,
      ih _ _ _ _ (fun x hx => h x (by simp [hx]))]
    have hcol : col + 1 + mid.length + 1 = col + (c :: mid).length + 1 := by
      simp only [List.length_cons]
      omega
    rw [hcol, List.append_assoc]
    simp

theorem alphaLoop_eof_chars (cs : List Char) : ∀ (l col : Nat) (value : List Char)
    (t : Token) (st' : LexerInstance),
    alphaLoop cs l col value = (.ok t, st') → t.symbol = .EndOfFile → st'.chars = [] := by
  induction cs with
  | nil =>
    intro l col value t st' h _
    simp only [alphaLoop, Prod.mk.injEq, Except.ok.injEq] at h
    obtain ⟨h1', h2'⟩ := h
    subst h2'
    rfl
  | cons c cs ih =>
    intro l col value t st' h hsym
    by_cases hw : isWhite c = true
    · rw [alphaLoop_step_white hw] at h
      simp only [Prod.mk.injEq, Except.ok.injEq] at h
      obtain ⟨h1', h2'⟩ := h
      subst h1'
      simp at hsym
    · by_cases ha : isAlnumU c = true
      · rw [alphaLoop_step_alnum ha] at h
        exact ih _ _ _ _ _ h hsym
      · by_cases hcolon : c = ':'
        · subst hcolon
          rw [alphaLoop_step_colon] at h
          simp only [Prod.mk.injEq, Except.ok.injEq] at h
          obtain ⟨h1', h2'⟩ := h
          subst h1'
          simp at hsym
        · rw [alphaLoop, if_neg (by simp [hw]), if_neg (by simp [ha]),
            if_neg hcolon] at h
          simp at h

/-! ## String scan lemmas -/

theorem stringLoop_step_dq {cs : List Char} {l col : Nat} {value : List Char} :
    stringLoop ('\'' :: '\'' :: cs) l col value =
      stringLoop cs l (col + 2) (value ++ ['\'']) := by
  rw [stringLoop.eq_def]
  simp

theorem stringLoop_step_close {ch : Char} {cs : List Char} {l col : Nat} {value : List Char}
    (h : ch ≠ '\'') :
    stringLoop ('\'' :: ch :: cs) l col value =
      (.ok ⟨.StringLiteral, value⟩, ⟨ch :: cs, l, col + 1⟩) := by
  rw [stringLoop.eq_def]
  simp [h]

theorem stringLoop_step_close_nil {l col : Nat} {value : List Char} :
    stringLoop ['\''] l col value = (.ok ⟨.StringLiteral, value⟩, ⟨[], l, col + 1⟩) := by
  rw [stringLoop.eq_def]
  simp

theorem stringLoop_step_cr {cs : List Char} {l col : Nat} {value : List Char} :
    stringLoop ('\r' :: cs) l col value = stringLoop cs l col value := by
  rw [stringLoop.eq_def]
  simp

theorem stringLoop_step_nl {cs : List Char} {l col : Nat} {value : List Char} :
    stringLoop ('\n' :: cs) l col value = stringLoop cs (l + 1) 1 (value ++ ['\n']) := by
  rw [stringLoop.eq_def]
  simp

theorem stringLoop_step_other {c : Char} {cs : List Char} {l col : Nat} {value : List Char}
    (h1 : c ≠ '\'') (h2 : c ≠ '\r') (h3 : c ≠ '\n') :
    stringLoop (c :: cs) l col value = stringLoop cs l (col + 1) (value ++ [c]) := by
  rw [stringLoop.eq_def]
  simp [h1, h2, h3]

theorem stringLoop_nil {l col : Nat} {value : List Char} :
    stringLoop [] l col value =
      (.error ⟨("unterminated string constant: ").data ++ value⟩, ⟨[], l, col⟩) := by
  rw [stringLoop.eq_def]

theorem stringLoop_ok_symbol (cs : List Char) (l col : Nat) (value : List Char) :
    ∀ (t : Token) (st' : LexerInstance),
    stringLoop cs l col value = (.ok t, st') → t.symbol = .StringLiteral := by
  induction cs, l, col, value using stringLoop.induct with
  | case1 l col value =>
    intro t st' h
    rw [stringLoop_nil] at h
    simp at h
  | case2 l col value rest2 ih =>
    intro t st' h
    rw [stringLoop_step_dq] at h
    exact ih _ _ h
  | case3 l col value ch rest2 hch =>
    intro t st' h
    rw [stringLoop_step_close hch] at h
    simp only [Prod.mk.injEq, Except.ok.injEq] at h
    obtain ⟨h1, h2⟩ := h
    subst h1
    rfl
  | case4 l col value =>
    intro t st' h
    rw [stringLoop_step_close_nil] at h
    simp only [Prod.mk.injEq, Except.ok.injEq] at h
    obtain ⟨h1, h2⟩ := h
    subst h1
    rfl
  | case5 rest l col value h5 ih =>
    intro t st' h
    rw [stringLoop_step_cr] at h
    exact ih _ _ h
  | case6 rest l col value h1 h2 ih =>
    intro t st' h
    rw [stringLoop_step_nl] at h
    exact ih _ _ h
  | case7 c rest l col value h1 h2 h3 ih =>
    intro t st' h
    rw [stringLoop_step_other h1 h2 h3] at h
    exact ih _ _ h

theorem stringLoop_no_cr (cs : List Char) (l col : Nat) (value : List Char) :
    ∀ (t : Token) (st' : LexerInstance), ('\r') ∉ value →
    stringLoop cs l col value = (.ok t, st') → ('\r') ∉ t.value := by
  induction cs, l, col, value using stringLoop.induct with
  | case1 l col value =>
    intro t st' _ h
    rw [stringLoop_nil] at h
    simp at h
  | case2 l col value rest2 ih =>
    intro t st' hv h
    rw [stringLoop_step_dq] at h
    refine ih _ _ ?_ h
    simp [hv]
  | case3 l col value ch rest2 hch =>
    intro t st' hv h
    rw [stringLoop_step_close hch] at h
    simp only [Prod.mk.injEq, Except.ok.injEq] at h
    obtain ⟨h1, h2⟩ := h
    subst h1
    exact hv
  | case4 l col value =>
    intro t st' hv h
    rw [stringLoop_step_close_nil] at h
    simp only [Prod.mk.injEq, Except.ok.injEq] at h
    obtain ⟨h1, h2⟩ := h
    subst h1
    exact hv
  | case5 rest l col value h5 ih =>
    intro t st' hv h
    rw [stringLoop_step_cr] at h
    exact ih _ _ hv h
  | case6 rest l col value h1 h2 ih =>
    intro t st' hv h
    rw [stringLoop_step_nl] at h
    refine ih _ _ ?_ h
    simp [hv]
  | case7 c rest l col value h1 h2 h3 ih =>
    intro t st' hv h
    rw [stringLoop_step_other h1 h2 h3] at h
    refine ih _ _ ?_ h
    intro hmem
    rcases List.mem_append.mp hmem with hm | hm
    · exact hv hm
    · exact h2 (List.mem_singleton.mp hm).symm

/-! ## Step facts for the spec-side characterizations -/

theorem unterminated_dq {cs : List Char} :
    unterminated ('\'' :: '\'' :: cs) = unterminated cs := by
  rw [unterminated.eq_def]
  simp

theorem unterminated_close {ch : Char} {cs : List Char} (h : ch ≠ '\'') :
    unterminated ('\'' :: ch :: cs) = false := by
  rw [unterminated.eq_def]
  simp [h]

theorem unterminated_one : unterminated ['\''] = false := by
  rw [unterminated.eq_def]
  simp

theorem unterminated_other {c : Char} {cs : List Char} (h : c ≠ '\'') :
    unterminated (c :: cs) = unterminated cs := by
  rw [unterminated.eq_def]
  simp [h]

theorem pendingValue_dq {cs : List Char} :
    pendingValue ('\'' :: '\'' :: cs) = '\'' :: pendingValue cs := by
  rw [pendingValue.eq_def]
  simp

theorem pendingValue_cr {cs : List Char} :
    pendingValue ('\r' :: cs) = pendingValue cs := by
  rw [pendingValue.eq_def]
  simp

theorem pendingValue_other {c : Char} {cs : List Char} (h1 : c ≠ '\'') (h2 : c ≠ '\r') :
    pendingValue (c :: cs) = c :: pendingValue cs := by
  rw [pendingValue.eq_def]
  simp [h1, h2]

theorem stringLoop_unterminated (cs : List Char) (l col : Nat) (value : List Char) :
    unterminated cs = true →
    ∃ l' col', stringLoop cs l col value =
      (.error ⟨("unterminated string constant: ").data ++ (value ++ pendingValue cs)⟩,
        ⟨[], l', col'⟩) := by
  induction cs, l, col, value using stringLoop.induct with
  | case1 l col value =>
    intro _
    refine ⟨l, col, ?_⟩
    rw [stringLoop_nil]
    simp [pendingValue]
  | case2 l col value rest2 ih =>
    intro hu
    rw [unterminated_dq] at hu
    obtain ⟨l', col', hrec⟩ := ih hu
    refine ⟨l', col', ?_⟩
    rw [stringLoop_step_dq, hrec, pendingValue_dq]
    simp
  | case3 l col value ch rest2 hch =>
    intro hu
    rw [unterminated_close hch] at hu
    exact Bool.noConfusion hu
  | case4 l col value =>
    intro hu
    rw [unterminated_one] at hu
    exact Bool.noConfusion hu
  | case5 rest l col value h5 ih =>
    intro hu
    rw [unterminated_other (by decide)] at hu
    obtain ⟨l', col', hrec⟩ := ih hu
    refine ⟨l', col', ?_⟩
    rw [stringLoop_step_cr, hrec, pendingValue_cr]
  | case6 rest l col value h1 h2 ih =>
    intro hu
    rw [unterminated_other (by decide)] at hu
    obtain ⟨l', col', hrec⟩ := ih hu
    refine ⟨l', col', ?_⟩
    rw [stringLoop_step_nl, hrec, pendingValue_other (by decide) (by decide)]
    simp
  | case7 c rest l col value h1 h2 h3 ih =>
    intro hu
    rw [unterminated_other h1] at hu
    obtain ⟨l', col', hrec⟩ := ih hu
    refine ⟨l', col', ?_⟩
    rw [stringLoop_step_other h1 h2 h3, hrec, pendingValue_other h1 h2]
    simp

theorem escapeQuotes_q {s : List Char} :
    escapeQuotes ('\'' :: s) = '\'' :: '\'' :: escapeQuotes s := by
  simp [escapeQuotes]

theorem escapeQuotes_other {c : Char} {s : List Char} (h : c ≠ '\'') :
    escapeQuotes (c :: s) = c :: escapeQuotes s := by
  simp [escapeQuotes, h]

theorem stringLoop_escape (s : List Char) : ∀ (rest : List Char) (l col : Nat)
    (value : List Char), ('\r') ∉ s → rest.head? ≠ some '\'' →
    ∃ l' col', stringLoop (escapeQuotes s ++ '\'' :: rest) l col value =
      (.ok ⟨.StringLiteral, value ++ s⟩, ⟨rest, l', col'⟩) := by
  induction s with
  | nil =>
    intro rest l col value _ hrest
    cases rest with
    | nil =>
      refine ⟨l, col + 1, ?_⟩
      show stringLoop ['\''] l col value = _
      rw [stringLoop_step_close_nil]
      simp
    | cons ch rest2 =>
      have hch : ch ≠ '\'' := by
        intro he
        exact hrest (by simp [he])
      refine ⟨l, col + 1, ?_⟩
      show stringLoop ('\'' :: ch :: rest2) l col value = _
      rw [stringLoop_step_close hch]
      simp
  | cons a s ih =>
    intro rest l col value hcr hrest
    have hcr' : ('\r') ∉ s := fun hx => hcr (by simp [hx])
    by_cases ha : a = '\''
    · subst ha
      rw [escapeQuotes_q, List.cons_append, List.cons_append, stringLoop_step_dq]
      obtain ⟨l', col', hrec⟩ := ih rest l (col + 2) (value ++ ['\'']) hcr' hrest
      refine ⟨l', col', ?_⟩
      rw [hrec]
      simp
    · have har : a ≠ '\r' := fun he => hcr (by simp [he])
      rw [escapeQuotes_other ha, List.cons_append]
      by_cases han : a = '\n'
      · subst han
        rw [stringLoop_step_nl]
        obtain ⟨l', col', hrec⟩ := ih rest (l + 1) 1 (value ++ ['\n']) hcr' hrest
        refine ⟨l', col', ?_⟩
        rw [hrec]
        simp
      · rw [stringLoop_step_other ha har han]
        obtain ⟨l', col', hrec⟩ := ih rest l (col + 1) (value ++ [a]) hcr' hrest
        refine ⟨l', col', ?_⟩
        rw [hrec]
        simp

/-! ## Dispatch lemmas for next_token -/

theorem nextToken_nil {l col : Nat} :
    nextToken ⟨[], l, col⟩ = some (.ok ⟨.EndOfFile, []⟩, ⟨[], l, col⟩) := rfl

theorem nextToken_cons {c : Char} {rest : List Char} {l col : Nat} (h : isWhite c = false) :
    nextToken ⟨c :: rest, l, col⟩ =
      (if isDigit c then some (handleNumber ⟨c :: rest, l, col⟩)
       else if isAlpha c then handleAlpha ⟨c :: rest, l, col⟩
       else if c = '.' then some (.ok ⟨.Period, ['.']⟩, ⟨rest, l, col + 1⟩)
       else if c = '\'' then handleString ⟨c :: rest, l, col⟩
       else if c = '"' then some (handleComment ⟨c :: rest, l, col⟩)
       else some (.error ⟨("unexpected character ").data ++ [c]⟩,
         if c = '\n' then ⟨rest, l + 1, 1⟩
         else if c = '\r' then ⟨rest, l, col⟩
         else ⟨rest, l, col + 1⟩)) := by
  unfold nextToken
  rw [skip_not_white h]

theorem handleString_cons {c : Char} {rest : List Char} {l col : Nat}
    (h1 : c ≠ '\n') (h2 : c ≠ '\r') :
    handleString ⟨c :: rest, l, col⟩ = some (stringLoop rest l (col + 1) []) := by
  unfold handleString
  rw [getChar_cons h1 h2]

theorem handleAlpha_cons {c : Char} {rest : List Char} {l col : Nat}
    (h1 : c ≠ '\n') (h2 : c ≠ '\r') :
    handleAlpha ⟨c :: rest, l, col⟩ = some (alphaLoop rest l (col + 1) [c]) := by
  unfold handleAlpha
  rw [getChar_cons h1 h2]

/-! ## The claims -/

/-- C1: for every string literal input the string scan strips the delimiting
quotes, decodes each doubled-quote escape to a single quote character, and
discards every carriage-return while keeping line-feeds.  Stated as:
(i) the round-trip law over the doubled-quote encoding — scanning
`'` ++ escapeQuotes s ++ `'` (with no escape-start after the closing quote)
yields one StringLiteral token whose value is exactly `s`, for any
carriage-return-free `s`, line-feeds included; (ii) whenever the scan loop
returns a token, its value contains no carriage-return; (iii) the source text
`'It''s here'` lexes to exactly one StringLiteral token with value `It's here`;
(iv) a literal containing an embedded CR LF keeps the line-feed and drops the
carriage-return. -/
theorem c1_string_scan :
    (∀ (s rest : List Char) (l col : Nat), ('\r') ∉ s → rest.head? ≠ some '\'' →
      ∃ l' col', nextToken ⟨'\'' :: (escapeQuotes s ++ '\'' :: rest), l, col⟩ =
        some (.ok ⟨.StringLiteral, s⟩, ⟨rest, l', col'⟩)) ∧
    (∀ (cs : List Char) (l col : Nat) (value : List Char) (t : Token)
      (st' : LexerInstance), ('\r') ∉ value →
      stringLoop cs l col value = (.ok t, st') → ('\r') ∉ t.value) ∧
    nextToken (mkLexer (("'It''s here'").data)) =
      some (.ok ⟨.StringLiteral, ("It's here").data⟩, ⟨[], 1, 13⟩) ∧
    nextToken (mkLexer (("'a\r\nb'").data)) =
      some (.ok ⟨.StringLiteral, ("a\nb").data⟩, ⟨[], 2, 3⟩) := by
  refine ⟨?_, ?_, rfl, rfl⟩
  · intro s rest l col hcr hrest
    rw [nextToken_cons (by decide), if_neg (by decide), if_neg (by decide),
      if_neg (by decide), if_pos rfl, handleString_cons (by decide) (by decide)]
    obtain ⟨l', col', hrec⟩ := stringLoop_escape s rest l (col + 1) [] hcr hrest
    refine ⟨l', col', ?_⟩
    rw [hrec]
    simp
  · intro cs l col value t st' hv h
    exact stringLoop_no_cr cs l col value t st' hv h

/-- C1 witness: the round-trip law applied to the literal body `a'⏎b` followed
by a Period: the scan decodes the doubled quote and keeps the line-feed. -/
theorem c1_string_scan_witness :
    ∃ l' col',
      nextToken ⟨'\'' :: (escapeQuotes (('a') :: ('\'') :: ('\n') :: ('b') :: []) ++
        '\'' :: ('.') :: []), 1, 1⟩ =
      some (.ok ⟨.StringLiteral, ('a') :: ('\'') :: ('\n') :: ('b') :: []⟩,
        ⟨('.') :: [], l', col'⟩) :=
  c1_string_scan.1 (('a') :: ('\'') :: ('\n') :: ('b') :: []) (('.') :: []) 1 1
    (by decide) (by decide)

/-- C2 counterexample: the claim says an identifier immediately followed by end
of input yields a token whose symbol is Identifier, but `handle_alpha` emits
the `EndOfFile` symbol there (source line 173), as the repository's own
`test_identifier` asserts: lexing `Foobar` gives symbol EndOfFile (value
`Foobar`), and EndOfFile is not Identifier. -/
theorem c2_identifier_eoi_counterexample :
    nextToken (mkLexer (("Foobar").data)) =
      some (.ok ⟨.EndOfFile, ("Foobar").data⟩, ⟨[], 1, 7⟩) ∧
    Symbol.EndOfFile ≠ Symbol.Identifier :=
  ⟨rfl, by decide⟩

/-- C2 amended: for every identifier (a letter followed by letters, digits, or
underscores) immediately followed by end of input with no trailing whitespace
and no colon, `next_token` returns a token whose symbol is `EndOfFile` and
whose value is the accumulated identifier text. -/
theorem c2_identifier_eoi (first : Char) (rest : List Char) (l col : Nat)
    (h1 : isAlpha first = true) (h2 : ∀ c ∈ rest, isAlnumU c = true) :
    nextToken ⟨first :: rest, l, col⟩ =
      some (.ok ⟨.EndOfFile, first :: rest⟩, ⟨[], l, col + 1 + rest.length⟩) := by
  rw [nextToken_cons (not_white_of_alpha h1), if_neg (by simp [not_digit_of_alpha h1]),
    if_pos h1, handleAlpha_cons (ne_of_true_of_false h1 (by decide))
      (ne_of_true_of_false h1 (by decide)),
    alphaLoop_all_alnum rest l (col + 1) [first] h2]
  simp

/-- C2 witness: the amended statement evaluated on `Foobar`. -/
theorem c2_identifier_eoi_witness :
    nextToken ⟨("Foobar").data, 1, 1⟩ =
      some (.ok ⟨.EndOfFile, ("Foobar").data⟩, ⟨[], 1, 7⟩) :=
  c2_identifier_eoi 'F' (("oobar").data) 1 1 (by decide) (by decide)

/-- C3: whenever the opening quote is consumed and end of input is reached
before a terminating closing quote (`unterminated` characterizes exactly those
streams), `next_token` returns a LexerError — never a token — whose message is
`unterminated string constant: ` followed by the partially accumulated value. -/
theorem c3_unterminated_string (cs : List Char) (l col : Nat)
    (h : unterminated cs = true) :
    ∃ l' col', nextToken ⟨'\'' :: cs, l, col⟩ =
      some (.error ⟨("unterminated string constant: ").data ++ pendingValue cs⟩,
        ⟨[], l', col'⟩) := by
  obtain ⟨l', col', hrec⟩ := stringLoop_unterminated cs l (col + 1) [] h
  refine ⟨l', col', ?_⟩
  rw [nextToken_cons (by decide), if_neg (by decide), if_neg (by decide),
    if_neg (by decide), if_pos rfl, handleString_cons (by decide) (by decide), hrec]
  simp

/-- C3 witness: `'abc` (no closing quote) yields the unterminated-string
LexerError carrying the partial value `abc`. -/
theorem c3_unterminated_string_witness :
    ∃ l' col', nextToken ⟨'\'' :: ("abc").data, 1, 1⟩ =
      some (.error ⟨("unterminated string constant: abc").data⟩, ⟨[], l', col'⟩) :=
  c3_unterminated_string (("abc").data) 1 1 (by decide)

/-- C4 (code bug): the dispatcher does route digit-headed input to the numeric
scan, but `handle_number` is an unimplemented stub, so on input `7` the
returned token has symbol `EndOfFile` and empty value — not the `Number` token
carrying the digit-run text that the claim requires — and the digit is not even
consumed. -/
theorem c4_number_stub :
    nextToken (mkLexer (('7') :: [])) =
      some (.ok ⟨.EndOfFile, []⟩, ⟨('7') :: [], 1, 1⟩) ∧
    Symbol.EndOfFile ≠ Symbol.Number :=
  ⟨rfl, by decide⟩

/-- C5: an identifier segment immediately followed by a colon lexes to a
Keyword token; the colon is consumed but not part of the value. -/
theorem c5_keyword (first : Char) (mid rest : List Char) (l col : Nat)
    (h1 : isAlpha first = true) (h2 : ∀ c ∈ mid, isAlnumU c = true) :
    nextToken ⟨first :: (mid ++ ':' :: rest), l, col⟩ =
      some (.ok ⟨.Keyword, first :: mid⟩, ⟨rest, l, col + mid.length + 2⟩) := by
  rw [nextToken_cons (not_white_of_alpha h1), if_neg (by simp [not_digit_of_alpha h1]),
    if_pos h1, handleAlpha_cons (ne_of_true_of_false h1 (by decide))
      (ne_of_true_of_false h1 (by decide)),
    alphaLoop_keyword mid rest l (col + 1) [first] h2]
  have hcol : col + 1 + mid.length + 1 = col + mid.length + 2 := by omega
  rw [hcol]
  simp

/-- C5 witness: `foo:` lexes to Keyword with value `foo`, colon stripped. -/
theorem c5_keyword_witness :
    nextToken ⟨("foo:").data, 1, 1⟩ =
      some (.ok ⟨.Keyword, ("foo").data⟩, ⟨[], 1, 5⟩) :=
  c5_keyword 'f' (("oo").data) [] 1 1 (by decide) (by decide)

/-- C6: for every source text consisting solely of whitespace characters
(space, tab, carriage-return, line-feed), including the empty text, the first
call to `next_token` returns an `EndOfFile` token with empty value. -/
theorem c6_whitespace_eof (cs : List Char) (h : ∀ c ∈ cs, isWhite c = true) :
    ∃ l' col',
      nextToken (mkLexer cs) = some (.ok ⟨.EndOfFile, []⟩, ⟨[], l', col'⟩) := by
  obtain ⟨l', col', hsk⟩ := skip_all_white cs 1 1 h
  refine ⟨l', col', ?_⟩
  unfold nextToken mkLexer
  rw [hsk]

/-- C6 witness: the four whitespace characters in a row, and nothing else,
lex to EndOfFile with empty value. -/
theorem c6_whitespace_eof_witness :
    ∃ l' col',
      nextToken (mkLexer ((" \t\r\n").data)) =
        some (.ok ⟨.EndOfFile, []⟩, ⟨[], l', col'⟩) :=
  c6_whitespace_eof ((" \t\r\n").data) (by decide)

/-- C7: once `next_token` has returned an `EndOfFile` token, calling it again
on the resulting state returns `EndOfFile` with empty value and the state is
returned unchanged — hence every subsequent call keeps returning `EndOfFile`,
with no panic and no error. -/
theorem c7_eof_idempotent (st : LexerInstance) (t : Token) (st' : LexerInstance)
    (h : nextToken st = some (.ok t, st')) (hsym : t.symbol = .EndOfFile) :
    nextToken st' = some (.ok ⟨.EndOfFile, []⟩, st') := by
  cases hsw : skipWhitespace st.chars st.line st.column with
  | mk cs1 l1 col1 =>
    cases cs1 with
    | nil =>
      have hst : nextToken st = some (.ok ⟨.EndOfFile, []⟩, ⟨[], l1, col1⟩) := by
        unfold nextToken
        rw [hsw]
      rw [hst] at h
      simp only [Option.some.injEq, Prod.mk.injEq, Except.ok.injEq] at h
      obtain ⟨h1, h2⟩ := h
      subst h2
      exact nextToken_nil
    | cons c rest =>
      have hstep : nextToken st =
          (if isDigit c then some (handleNumber ⟨c :: rest, l1, col1⟩)
           else if isAlpha c then handleAlpha ⟨c :: rest, l1, col1⟩
           else if c = '.' then some (.ok ⟨.Period, ['.']⟩, ⟨rest, l1, col1 + 1⟩)
           else if c = '\'' then handleString ⟨c :: rest, l1, col1⟩
           else if c = '"' then some (handleComment ⟨c :: rest, l1, col1⟩)
           else some (.error ⟨("unexpected character ").data ++ [c]⟩,
             if c = '\n' then ⟨rest, l1 + 1, 1⟩
             else if c = '\r' then ⟨rest, l1, col1⟩
             else ⟨rest, l1, col1 + 1⟩)) := by
        unfold nextToken
        rw [hsw]
      rw [hstep] at h
      by_cases hd : isDigit c = true
      · rw [if_pos hd] at h
        simp only [handleNumber, Option.some.injEq, Prod.mk.injEq,
          Except.ok.injEq] at h
        obtain ⟨h1, h2⟩ := h
        subst h2
        rw [nextToken_cons (not_white_of_digit hd), if_pos hd]
        rfl
      · rw [if_neg hd] at h
        by_cases ha : isAlpha c = true
        · rw [if_pos ha, handleAlpha_cons (ne_of_true_of_false ha (by decide))
            (ne_of_true_of_false ha (by decide))] at h
          simp only [Option.some.injEq] at h
          have hch := alphaLoop_eof_chars rest l1 (col1 + 1) [c] t st' h hsym
          obtain ⟨scs, sl, scol⟩ := st'
          have hch' : scs = [] := hch
          subst hch'
          exact nextToken_nil
        · rw [if_neg ha] at h
          by_cases hp : c = '.'
          · rw [if_pos hp] at h
            simp only [Option.some.injEq, Prod.mk.injEq, Except.ok.injEq] at h
            obtain ⟨h1, h2⟩ := h
            subst h1
            simp at hsym
          · rw [if_neg hp] at h
            by_cases hq : c = '\''
            · subst hq
              rw [if_pos rfl, handleString_cons (by decide) (by decide)] at h
              simp only [Option.some.injEq] at h
              have hsl := stringLoop_ok_symbol rest l1 (col1 + 1) [] t st' h
              rw [hsym] at hsl
              exact absurd hsl (by decide)
            · rw [if_neg hq] at h
              by_cases hcm : c = '"'
              · subst hcm
                rw [if_pos rfl] at h
                simp only [handleComment, Option.some.injEq, Prod.mk.injEq,
                  Except.ok.injEq] at h
                obtain ⟨h1, h2⟩ := h
                subst h2
                rw [nextToken_cons (by decide), if_neg (by decide),
                  if_neg (by decide), if_neg (by decide), if_neg (by decide),
                  if_pos rfl]
                rfl
              · rw [if_neg hcm] at h
                simp at h

/-- C7 witness: lexing a lone digit hits the `handle_number` stub, which emits
EndOfFile without consuming the digit; the follow-up call again returns
EndOfFile with empty value on the unchanged state. -/
theorem c7_eof_idempotent_witness :
    nextToken ⟨('5') :: [], 1, 1⟩ =
      some (.ok ⟨.EndOfFile, []⟩, ⟨('5') :: [], 1, 1⟩) :=
  c7_eof_idempotent ⟨('5') :: [], 1, 1⟩ ⟨.EndOfFile, []⟩ ⟨('5') :: [], 1, 1⟩ rfl rfl

/-- C8: when the next unconsumed character after whitespace skipping is not a
digit, letter, period, single quote, or double quote, `next_token` consumes it
and returns a LexerError whose message names the unexpected character. -/
theorem c8_unexpected_char (ws : List Char) (c : Char) (cs : List Char) (l col : Nat)
    (hws : ∀ x ∈ ws, isWhite x = true) (h0 : isWhite c = false)
    (h1 : isDigit c = false) (h2 : isAlpha c = false)
    (h3 : c ≠ '.') (h4 : c ≠ '\'') (h5 : c ≠ '"') :
    nextToken ⟨ws ++ c :: cs, l, col⟩ =
      some (.error ⟨("unexpected character ").data ++ [c]⟩,
        ⟨cs, (skipWhitespace ws l col).line, (skipWhitespace ws l col).column + 1⟩) := by
  have hn : c ≠ '\n' := fun he => by
    rw [he] at h0
    exact absurd h0 (by decide)
  have hr : c ≠ '\r' := fun he => by
    rw [he] at h0
    exact absurd h0 (by decide)
  have hsk := skipWhitespace_append ws (c :: cs) l col hws
  rw [skip_not_white h0] at hsk
  unfold nextToken
  rw [hsk]
  simp [h1, h2, h3, h4, h5, hn, hr]

/-- C8 witness: after a leading space, `@` is rejected with the
`unexpected character @` LexerError. -/
theorem c8_unexpected_char_witness :
    nextToken ⟨(' ') :: ('@') :: ('x') :: [], 1, 1⟩ =
      some (.error ⟨("unexpected character @").data⟩, ⟨('x') :: [], 1, 3⟩) :=
  c8_unexpected_char ((' ') :: []) '@' (('x') :: []) 1 1 (by decide) (by decide)
    (by decide) (by decide) (by decide) (by decide) (by decide)

/-- C9 counterexample: the claim says the column is incremented on every
consumed character other than newline, but `get_char` leaves the column (and
the line) unchanged on a carriage-return: consuming `'\r'` at column 7 keeps
the column at 7 instead of moving it to 8. -/
theorem c9_position_counterexample :
    getChar ⟨('\r') :: [], 3, 7⟩ = some ('\r', ⟨[], 3, 7⟩) ∧
    ('\r') ≠ '\n' ∧ (7 : Nat) ≠ 7 + 1 :=
  ⟨rfl, by decide, by decide⟩

/-- C9 amended: line and column both start at 1, the line is incremented
exactly on each newline consumed and the column is then reset to 1; a
carriage-return leaves both line and column unchanged; every other consumed
character increments the column and leaves the line unchanged. -/
theorem c9_position :
    (∀ cs : List Char, (mkLexer cs).line = 1 ∧ (mkLexer cs).column = 1) ∧
    (∀ (st : LexerInstance) (c : Char) (st' : LexerInstance),
      getChar st = some (c, st') →
        (c = '\n' → st'.line = st.line + 1 ∧ st'.column = 1) ∧
        (c ≠ '\n' → c = '\r' → st'.line = st.line ∧ st'.column = st.column) ∧
        (c ≠ '\n' → c ≠ '\r' → st'.line = st.line ∧ st'.column = st.column + 1)) := by
  refine ⟨fun cs => ⟨rfl, rfl⟩, ?_⟩
  intro st c st' h
  obtain ⟨cs, l, col⟩ := st
  cases cs with
  | nil => simp [getChar] at h
  | cons a rest =>
    simp only [getChar] at h
    by_cases hn : a = '\n'
    · rw [if_pos hn] at h
      simp only [Option.some.injEq, Prod.mk.injEq] at h
      obtain ⟨rfl, rfl⟩ := h
      exact ⟨fun _ => ⟨rfl, rfl⟩, fun hne => absurd hn hne, fun hne _ => absurd hn hne⟩
    · rw [if_neg hn] at h
      by_cases hr : a = '\r'
      · rw [if_pos hr] at h
        simp only [Option.some.injEq, Prod.mk.injEq] at h
        obtain ⟨rfl, rfl⟩ := h
        exact ⟨fun he => absurd he hn, fun _ _ => ⟨rfl, rfl⟩,
          fun _ hne => absurd hr hne⟩
      · rw [if_neg hr] at h
        simp only [Option.some.injEq, Prod.mk.injEq] at h
        obtain ⟨rfl, rfl⟩ := h
        exact ⟨fun he => absurd he hn, fun _ he => absurd he hr,
          fun _ _ => ⟨rfl, rfl⟩⟩

/-- C9 witness: a fresh lexer starts at line 1 column 1, and consuming `x` at
line 5 column 7 keeps the line and moves the column to 8. -/
theorem c9_position_witness :
    (mkLexer (('x') :: [])).line = 1 ∧
    ((⟨[], 5, 8⟩ : LexerInstance).line = 5 ∧
      (⟨[], 5, 8⟩ : LexerInstance).column = 7 + 1) :=
  ⟨(c9_position.1 (('x') :: [])).1,
    (c9_position.2 ⟨('x') :: [], 5, 7⟩ 'x' ⟨[], 5, 8⟩ rfl).2.2 (by decide) (by decide)⟩

/-- C10: `next_token` never panics: the `.expect` calls at the start of the
string scanner and the identifier scanner (modelled as the `none` result) are
unreachable, because each is entered only after the dispatcher has peeked a
present character; every call returns `some` of either a Token or a
LexerError. -/
theorem c10_no_panic (st : LexerInstance) : ∃ r, nextToken st = some r := by
  cases hsw : skipWhitespace st.chars st.line st.column with
  | mk cs1 l1 col1 =>
    cases cs1 with
    | nil =>
      refine ⟨(.ok ⟨.EndOfFile, []⟩, ⟨[], l1, col1⟩), ?_⟩
      unfold nextToken
      rw [hsw]
    | cons c rest =>
      have hstep : nextToken st =
          (if isDigit c then some (handleNumber ⟨c :: rest, l1, col1⟩)
           else if isAlpha c then handleAlpha ⟨c :: rest, l1, col1⟩
           else if c = '.' then some (.ok ⟨.Period, ['.']⟩, ⟨rest, l1, col1 + 1⟩)
           else if c = '\'' then handleString ⟨c :: rest, l1, col1⟩
           else if c = '"' then some (handleComment ⟨c :: rest, l1, col1⟩)
           else some (.error ⟨("unexpected character ").data ++ [c]⟩,
             if c = '\n' then ⟨rest, l1 + 1, 1⟩
             else if c = '\r' then ⟨rest, l1, col1⟩
             else ⟨rest, l1, col1 + 1⟩)) := by
        unfold nextToken
        rw [hsw]
      rw [hstep]
      by_cases hd : isDigit c = true
      · rw [if_pos hd]
        exact ⟨_, rfl⟩
      · rw [if_neg hd]
        by_cases ha : isAlpha c = true
        · rw [if_pos ha, handleAlpha_cons (ne_of_true_of_false ha (by decide))
            (ne_of_true_of_false ha (by decide))]
          exact ⟨_, rfl⟩
        · rw [if_neg ha]
          by_cases hp : c = '.'
          · rw [if_pos hp]
            exact ⟨_, rfl⟩
          · rw [if_neg hp]
            by_cases hq : c = '\''
            · subst hq
              rw [if_pos rfl, handleString_cons (by decide) (by decide)]
              exact ⟨_, rfl⟩
            · rw [if_neg hq]
              by_cases hcm : c = '"'
              · rw [if_pos hcm]
                exact ⟨_, rfl⟩
              · rw [if_neg hcm]
                exact ⟨_, rfl⟩

end Plaid
